import Mathlib

/-!
Shallow embedding of `src/kdenlive-project-parser.py`.

Time values (datetimes parsed by `strptime` at the fixed reference date,
and timedeltas) are modelled as integer offsets from the reference
origin.  Attribute values parsed from `HH:MM:SS.mmm` (and `MM:SS`)
strings are necessarily non-negative, so events carry `Nat` values;
all timeline arithmetic is done in `Int`, matching Python's
datetime/timedelta arithmetic, which is closed under subtraction.
-/

/-- Python class `timeline_obj`: one clip placed on a playlist timeline.
`__lt__` compares `timeline_in`. -/
structure timeline_obj where
  chain_id : String
  timeline_in : Int
  chain_in : Int
  chain_out : Int
  deriving Repr, DecidableEq, Inhabited

/-- Python `timeline_obj.length`: `chain_out - chain_in`. -/
def timeline_obj.length (t : timeline_obj) : Int :=
  t.chain_out - t.chain_in

/-- One XML child element of a `<playlist>` element, as the `match` in
`playlist.__init__` sees it: `blank` tags carry their parsed `length`
attribute, `entry` tags their `producer`, `in` and `out` attributes
(the parsed datetimes are non-negative offsets, hence `Nat`); any other
tag matches no `case` and is ignored. -/
inductive pl_event where
  | blank (length : Nat)
  | entry (producer : String) (chain_in chain_out : Nat)
  | other
  deriving Repr, DecidableEq

/-- Python `s.startswith(pre)`, used as `chain_id.startswith("chain")`:
the string begins with the given literal.  It is computed on the
character lists (for valid strings this agrees with the byte-level
check) so that it is kernel-computable. -/
def py_startswith (s pre : String) : Bool :=
  pre.data.isPrefixOf s.data

/-- The `while lo < hi` loop of CPython `bisect.bisect_right`,
comparing `x < key(a[mid])` where `key` extracts `timeline_in` (this is
`key=attrgetter("timeline_in")` in `seek_chains`, and
`timeline_obj.__lt__` inside `insort_right`, which compares the same
field).  The first `Nat` argument is a structural bound on the number
of loop iterations, so that the definition is kernel-computable. -/
def bisect_loop (a : List timeline_obj) (x : Int) : Nat → Nat → Nat → Nat
  | 0, lo, _ => lo
  | fuel + 1, lo, hi =>
      if lo < hi then
        if x < (a.getD ((lo + hi) / 2) default).timeline_in then
          bisect_loop a x fuel lo ((lo + hi) / 2)
        else
          bisect_loop a x fuel ((lo + hi) / 2 + 1) hi
      else
        lo

/-- CPython `bisect.bisect_right(a, x)` over the whole list.  The loop
is given `len(a)` as structural iteration bound, which always suffices:
`hi - lo` starts at `len(a)` and strictly shrinks every iteration, so
the `while lo < hi` loop runs at most `len(a)` times. -/
def bisect_right (a : List timeline_obj) (x : Int) : Nat :=
  bisect_loop a x a.length 0 a.length

/-- CPython `bisect.insort_right(a, x)`: find the insertion point with
`bisect_right` and insert `x` there (`a.insert(lo, x)`). -/
def insort_right (a : List timeline_obj) (x : timeline_obj) : List timeline_obj :=
  a.take (bisect_right a x.timeline_in) ++ x :: a.drop (bisect_right a x.timeline_in)

/-- Loop state of `playlist.__init__`: the running cursor `current_time`
(a datetime starting at the parsed origin `'0:0:0.0'`, i.e. offset `0`),
the timeline built so far, and the validity flag. -/
structure build_state where
  current_time : Int
  timeline : List timeline_obj
  is_valid : Bool
  deriving Repr, DecidableEq

/-- The `for child in playlist_xml_obj` loop of `playlist.__init__`, one
step per child element: `blank` advances the cursor; `entry` is skipped
when its producer does not start with `"chain"`, and otherwise emits a
`timeline_obj` at the cursor, advances the cursor by the entry's length,
inserts with `insort_right` and marks the playlist valid. -/
def process_children (st : build_state) : List pl_event → build_state
  | [] => st
  | pl_event.blank len :: rest =>
      process_children { st with current_time := st.current_time + (len : Int) } rest
  | pl_event.entry chain_id chain_in chain_out :: rest =>
      if py_startswith chain_id "chain" then
        process_children
          { current_time := st.current_time + (timeline_obj.mk chain_id st.current_time
              (chain_in : Int) (chain_out : Int)).length,
            timeline := insort_right st.timeline
              (timeline_obj.mk chain_id st.current_time (chain_in : Int) (chain_out : Int)),
            is_valid := true } rest
      else
        process_children st rest
  | pl_event.other :: rest => process_children st rest

/-- Python class `playlist` (id, ordered timeline, validity flag). -/
structure playlist where
  id : String
  timeline : List timeline_obj
  is_valid : Bool
  deriving Repr, DecidableEq

/-- Python `playlist.__init__`: the `main_bin` playlist short-circuits to
an empty invalid track without processing any child; otherwise the
children are folded starting from cursor `0`, empty timeline and
`is_valid = False`. -/
def playlist.init (id : String) (children : List pl_event) : playlist :=
  if id == "main_bin" then
    { id := id, timeline := [], is_valid := false }
  else
    let st := process_children
      { current_time := 0, timeline := [], is_valid := false } children
    { id := id, timeline := st.timeline, is_valid := st.is_valid }

/-- Python list indexing `a[i]` with an `int` index: a negative index
wraps around from the end; an index still out of range raises
`IndexError`, modelled as `none`. -/
def py_index (a : List timeline_obj) (i : Int) : Option timeline_obj :=
  if 0 ≤ i then a.get? i.toNat
  else if 0 ≤ (a.length : Int) + i then a.get? ((a.length : Int) + i).toNat
  else none

/-- Python `playlist.seek_chains(start, end)`:
`start_index = bisect_right(timeline, start, key=timeline_in) - 1`,
then `results = [self.timeline[start_index]]` (Python indexing, so
`start_index = -1` wraps to the last element, and raises `IndexError`
on an empty timeline, modelled as `none`), then the
`range(start_index+1, len(self.timeline))` scan keeping every entry
with `timeline_in < end`. -/
def playlist.seek_chains (p : playlist) (start fin : Int) : Option (List timeline_obj) :=
  match py_index p.timeline ((bisect_right p.timeline start : Int) - 1) with
  | none => none
  | some first =>
      some (first :: (p.timeline.drop
          (((bisect_right p.timeline start : Int) - 1 + 1).toNat)).filter
        (fun t => decide (t.timeline_in < fin)))

/-- Body of the `for t in timeline_objs` loop in `__main__`: the trim
instruction `(chain_start, chain_end)` computed for one clip `t` and the
requested window `[start, fin)`, where `length = fin - start`:
`start_offset = start - t.timeline_in`,
`chain_start = t.chain_in + start_offset`, and
`chain_end = t.chain_out if t.length() < length else chain_start + length`. -/
def trim_clip (start fin : Int) (t : timeline_obj) : Int × Int :=
  (t.chain_in + (start - t.timeline_in),
   if t.length < fin - start then t.chain_out
   else t.chain_in + (start - t.timeline_in) + (fin - start))

/-- One top-level child of the project XML root, as the `match` in
`parse_kdenlive_project` sees it: `chain` elements carry their id and the
text of their `resource` property; `playlist` elements (constructor
`playlist_el`) carry their id and children; `tractor` elements carry
their `<track>` children as `(producer, hide)` pairs where the second
component is `none` when the `hide` attribute is absent; any other tag
matches no `case` and is ignored. -/
inductive top_elem where
  | chain (id : String) (resource : String)
  | playlist_el (id : String) (children : List pl_event)
  | tractor (tracks : List (String × Option String))
  | other
  deriving Repr, DecidableEq

/-- Python `dict` assignment `d[k] = v` on a dict modelled as an
insertion-ordered association list: overwrite in place when the key is
present, otherwise append. -/
def dict_set {α : Type} (d : List (String × α)) (k : String) (v : α) : List (String × α) :=
  if d.any (fun p => p.1 == k) then
    d.map (fun p => if p.1 == k then (k, v) else p)
  else
    d ++ [(k, v)]

/-- Python `d[k]` dict lookup; `none` models a `KeyError`. -/
def dict_get {α : Type} (d : List (String × α)) (k : String) : Option α :=
  (d.find? (fun p => p.1 == k)).map (fun p => p.2)

/-- The `for prop in child` loop of the `tractor` case: for each `track`
child, record `playlist_hide_status[producer] = hide` when the `hide`
attribute is present. -/
def record_hides (hide : List (String × String)) :
    List (String × Option String) → List (String × String)
  | [] => hide
  | (pid, some status) :: rest => record_hides (dict_set hide pid status) rest
  | (_, none) :: rest => record_hides hide rest

/-- The three dictionaries accumulated by the root scan of
`parse_kdenlive_project`. -/
structure parse_state where
  chains : List (String × String)
  playlists : List (String × playlist)
  playlist_hide_status : List (String × String)
  deriving Repr, DecidableEq

/-- One step of the `for child in tree.getroot()` loop of
`parse_kdenlive_project`: a `chain` records its resource; a `playlist` is
built with `playlist.__init__` and kept only when valid; a `tractor`
records hide statuses. -/
def parse_step (st : parse_state) : top_elem → parse_state
  | top_elem.chain id resource => { st with chains := dict_set st.chains id resource }
  | top_elem.playlist_el id children =>
      if (playlist.init id children).is_valid then
        { st with playlists := dict_set st.playlists id (playlist.init id children) }
      else st
  | top_elem.tractor tracks =>
      { st with playlist_hide_status := record_hides st.playlist_hide_status tracks }
  | top_elem.other => st

/-- The root scan of `parse_kdenlive_project` over all top-level
elements, starting from three empty dicts. -/
def parse_scan (root : List top_elem) : parse_state :=
  root.foldl parse_step
    { chains := [], playlists := [], playlist_hide_status := [] }

/-- The `muted_playlists` loop of `parse_kdenlive_project`: for each
retained playlist id, look up `playlist_hide_status[id]` (`none` models
the `KeyError` when the id has no declaration) and collect the ids whose
status equals `"both"`. -/
def collect_muted (hide : List (String × String)) :
    List (String × playlist) → Option (List String)
  | [] => some []
  | (id, _) :: rest =>
      match dict_get hide id with
      | none => none
      | some status =>
          (collect_muted hide rest).map
            (fun muted => if status == "both" then id :: muted else muted)

/-- Python `parse_kdenlive_project`: scan the root children, then delete
the muted playlists; `none` models the `KeyError` raised when a retained
playlist has no hide declaration at all. -/
def parse_kdenlive_project (root : List top_elem) :
    Option (List (String × String) × List (String × playlist)) :=
  (collect_muted (parse_scan root).playlist_hide_status (parse_scan root).playlists).map
    (fun muted =>
      ((parse_scan root).chains,
       (parse_scan root).playlists.filter (fun q => ! muted.contains q.1)))

/-! ### Order infrastructure: sortedness, counting, and the binary search -/

/-- The timeline ordering maintained by `insort_right` (non-strict, by
`timeline_in`, the key `timeline_obj.__lt__` compares). -/
def tl_sorted (a : List timeline_obj) : Prop :=
  a.Pairwise (fun x y => x.timeline_in ≤ y.timeline_in)

/-- Number of timeline entries with `timeline_in ≤ s`; on a sorted
timeline this is the insertion point `bisect_right` computes. -/
def count_le (a : List timeline_obj) (s : Int) : Nat :=
  a.countP (fun t => decide (t.timeline_in ≤ s))

theorem count_le_le_length (a : List timeline_obj) (s : Int) :
    count_le a s ≤ a.length :=
  List.countP_le_length _

theorem getD_eq_getElem (a : List timeline_obj) (j : Nat) (hj : j < a.length) :
    a.getD j default = a[j] := by
  rw [List.getD_eq_getElem?_getD, List.getElem?_eq_getElem hj]
  rfl

theorem getD_mem_of_lt (a : List timeline_obj) (j : Nat) (hj : j < a.length) :
    a.getD j default ∈ a := by
  rw [getD_eq_getElem a j hj]
  exact List.getElem_mem hj

theorem count_le_lower (a : List timeline_obj) (s : Int) (hs : tl_sorted a) :
    ∀ i, i < count_le a s → (a.getD i default).timeline_in ≤ s := by
  induction a with
  | nil => intro i hi; simp [count_le] at hi
  | cons t a ih =>
      rcases (List.pairwise_cons.mp hs) with ⟨hhead, htail⟩
      by_cases hk : t.timeline_in ≤ s
      · intro i hi
        cases i with
        | zero => simpa using hk
        | succ j =>
            have hj : j < count_le a s := by
              have : count_le (t :: a) s = count_le a s + 1 := by
                simp [count_le, List.countP_cons, hk]
              omega
            simpa using ih htail j hj
      · intro i hi
        have hz : count_le (t :: a) s = 0 := by
          have : ∀ u ∈ t :: a, ¬ (u.timeline_in ≤ s) := by
            intro u hu
            rcases List.mem_cons.mp hu with rfl | hu
            · exact hk
            · intro hus; exact hk (le_trans (hhead u hu) hus)
          simp only [count_le, List.countP_eq_zero]
          intro u hu
          simpa using this u hu
        omega

theorem count_le_suffix (a : List timeline_obj) (s : Int) (hs : tl_sorted a) :
    ∀ i, count_le a s ≤ i → i < a.length → s < (a.getD i default).timeline_in := by
  induction a with
  | nil => intro i _ hi; simp at hi
  | cons t a ih =>
      rcases (List.pairwise_cons.mp hs) with ⟨hhead, htail⟩
      by_cases hk : t.timeline_in ≤ s
      · have hc : count_le (t :: a) s = count_le a s + 1 := by
          simp [count_le, List.countP_cons, hk]
        intro i hci hilen
        cases i with
        | zero => omega
        | succ j =>
            have := ih htail j (by omega) (by simpa using hilen)
            simpa using this
      · intro i _ hilen
        cases i with
        | zero => simpa using lt_of_not_le hk
        | succ j =>
            have hj : j < a.length := by simpa using hilen
            have hmem : a.getD j default ∈ a := getD_mem_of_lt a j hj
            have : t.timeline_in ≤ (a.getD j default).timeline_in := hhead _ hmem
            have hlt : s < t.timeline_in := lt_of_not_le hk
            calc s < t.timeline_in := hlt
              _ ≤ (a.getD j default).timeline_in := this
              _ = ((t :: a).getD (j + 1) default).timeline_in := by simp

theorem bisect_loop_eq_count_le (a : List timeline_obj) (s : Int) (hs : tl_sorted a) :
    ∀ n lo hi, hi - lo ≤ n → hi ≤ a.length →
      lo ≤ count_le a s → count_le a s ≤ hi →
      bisect_loop a s n lo hi = count_le a s := by
  intro n
  induction n with
  | zero =>
      intro lo hi hn _ hlo hhi
      simp only [bisect_loop]
      omega
  | succ n ih =>
      intro lo hi hn hlen hlo hhi
      simp only [bisect_loop]
      by_cases hlt : lo < hi
      · rw [if_pos hlt]
        by_cases hcmp : s < (a.getD ((lo + hi) / 2) default).timeline_in
        · rw [if_pos hcmp]
          have hmid : count_le a s ≤ (lo + hi) / 2 := by
            by_contra hcon
            exact absurd (count_le_lower a s hs _ (by omega)) (not_le.mpr hcmp)
          exact ih lo ((lo + hi) / 2) (by omega) (by omega) hlo hmid
        · rw [if_neg hcmp]
          have hmid : (lo + hi) / 2 + 1 ≤ count_le a s := by
            by_contra hcon
            exact absurd (count_le_suffix a s hs ((lo + hi) / 2) (by omega) (by omega))
              (not_lt.mpr (not_lt.mp hcmp))
          exact ih ((lo + hi) / 2 + 1) hi (by omega) hlen hmid hhi
      · rw [if_neg hlt]
        omega

theorem bisect_right_eq_count_le (a : List timeline_obj) (s : Int) (hs : tl_sorted a) :
    bisect_right a s = count_le a s :=
  bisect_loop_eq_count_le a s hs a.length 0 a.length (by omega) (le_refl _)
    (Nat.zero_le _) (count_le_le_length a s)

theorem mem_take_count_le (a : List timeline_obj) (s : Int) (hs : tl_sorted a) :
    ∀ y ∈ a.take (count_le a s), y.timeline_in ≤ s := by
  induction a with
  | nil => simp
  | cons t a ih =>
      rcases (List.pairwise_cons.mp hs) with ⟨hhead, htail⟩
      by_cases hk : t.timeline_in ≤ s
      · have hc : count_le (t :: a) s = count_le a s + 1 := by
          simp [count_le, List.countP_cons, hk]
        rw [hc]
        intro y hy
        rcases List.mem_cons.mp (by simpa using hy) with rfl | hy'
        · exact hk
        · exact ih htail y hy'
      · have hc : count_le (t :: a) s = 0 := by
          simp only [count_le, List.countP_cons]
          have : count_le a s = 0 := by
            simp only [count_le, List.countP_eq_zero]
            intro u hu
            simp only [decide_eq_true_eq]
            intro hus
            exact hk (le_trans (hhead u hu) hus)
          simp only [count_le] at this
          simp [this, hk]
        rw [hc]
        simp

theorem mem_drop_count_le (a : List timeline_obj) (s : Int) (hs : tl_sorted a) :
    ∀ y ∈ a.drop (count_le a s), s < y.timeline_in := by
  induction a with
  | nil => simp
  | cons t a ih =>
      rcases (List.pairwise_cons.mp hs) with ⟨hhead, htail⟩
      by_cases hk : t.timeline_in ≤ s
      · have hc : count_le (t :: a) s = count_le a s + 1 := by
          simp [count_le, List.countP_cons, hk]
        rw [hc]
        intro y hy
        exact ih htail y (by simpa using hy)
      · have hc : count_le (t :: a) s = 0 := by
          simp only [count_le, List.countP_eq_zero]
          intro u hu
          simp only [decide_eq_true_eq]
          rcases List.mem_cons.mp hu with rfl | hu'
          · exact hk
          · intro hus; exact hk (le_trans (hhead u hu') hus)
        rw [hc]
        intro y hy
        rcases List.mem_cons.mp (by simpa using hy) with rfl | hy'
        · exact lt_of_not_le hk
        · exact lt_of_lt_of_le (lt_of_not_le hk) (hhead y hy')

theorem insort_right_sorted (a : List timeline_obj) (x : timeline_obj)
    (hs : tl_sorted a) : tl_sorted (insort_right a x) := by
  unfold insort_right
  rw [bisect_right_eq_count_le a _ hs]
  have hsplit : List.Pairwise (fun u v : timeline_obj => u.timeline_in ≤ v.timeline_in)
      (a.take (count_le a x.timeline_in) ++ a.drop (count_le a x.timeline_in)) := by
    rw [List.take_append_drop]
    exact hs
  have hparts := List.pairwise_append.mp hsplit
  rw [tl_sorted, List.pairwise_append]
  refine ⟨hparts.1, ?_, ?_⟩
  · rw [List.pairwise_cons]
    exact ⟨fun y hy => le_of_lt (mem_drop_count_le a x.timeline_in hs y hy), hparts.2.1⟩
  · intro u hu v hv
    rcases List.mem_cons.mp hv with heq | hv'
    · rw [heq]
      exact mem_take_count_le a x.timeline_in hs u hu
    · exact hparts.2.2 u hu v hv'

theorem insort_right_append (a : List timeline_obj) (x : timeline_obj)
    (hs : tl_sorted a) (hall : ∀ t ∈ a, t.timeline_in ≤ x.timeline_in) :
    insort_right a x = a ++ [x] := by
  unfold insort_right
  rw [bisect_right_eq_count_le a _ hs]
  have hc : count_le a x.timeline_in = a.length := by
    rw [count_le, List.countP_eq_length]
    intro t ht
    simpa using hall t ht
  rw [hc, List.take_length, List.drop_length]

/-- Sortedness invariant of the builder loop: `insort_right` keeps the
timeline sorted by `timeline_in` whatever the events are. -/
theorem process_children_sorted (evs : List pl_event) :
    ∀ st : build_state, tl_sorted st.timeline →
      tl_sorted (process_children st evs).timeline := by
  induction evs with
  | nil => intro st h; exact h
  | cons e rest ih =>
      intro st h
      cases e with
      | blank len => exact ih _ h
      | entry producer cin cout =>
          by_cases hp : py_startswith producer "chain"
          · simp only [process_children, hp, if_true]
            exact ih _ (insort_right_sorted _ _ h)
          · simp only [process_children, hp, if_false]
            exact ih _ h
      | other => exact ih _ h

theorem playlist_init_sorted (id : String) (evs : List pl_event) :
    tl_sorted (playlist.init id evs).timeline := by
  unfold playlist.init
  by_cases hid : id == "main_bin"
  · simp only [hid, if_true]
    exact List.Pairwise.nil
  · simp only [hid, if_false]
    exact process_children_sorted evs _ List.Pairwise.nil

/-! ### Builder lemmas -/

/-- True when the event is a recognized clip reference: an `entry` whose
producer id starts with `"chain"`. -/
def is_clip_entry : pl_event → Bool
  | pl_event.entry producer _ _ => py_startswith producer "chain"
  | _ => false

/-- Event well-formedness used by the fold-refinement theorem: every
recognized clip entry has `in ≤ out`, so the cursor never moves
backwards (real project files satisfy this; the builder is only
append-equivalent to the ordered-insert under this assumption). -/
def entry_ok : pl_event → Bool
  | pl_event.entry producer cin cout => !(py_startswith producer "chain") || decide (cin ≤ cout)
  | _ => true

/-- Strict event well-formedness used by the ordering-invariant theorem:
every recognized clip entry has `in < out` (positive duration). -/
def entry_pos : pl_event → Bool
  | pl_event.entry producer cin cout => !(py_startswith producer "chain") || decide (cin < cout)
  | _ => true

/-- The Timeline Builder fold exactly as the specification sentence
states it: a cursor starting at the given value; a gap adds its length
to the cursor and emits no record; a recognized clip reference emits a
placed clip whose `timeline_start` is the current cursor and then
advances the cursor by `out - in`; an unrecognized clip reference (and
any other element) leaves cursor and output unchanged. -/
def build_fold (cursor : Int) : List pl_event → List timeline_obj
  | [] => []
  | pl_event.blank len :: rest => build_fold (cursor + (len : Int)) rest
  | pl_event.entry producer cin cout :: rest =>
      if py_startswith producer "chain" then
        timeline_obj.mk producer cursor (cin : Int) (cout : Int) ::
          build_fold (cursor + ((cout : Int) - (cin : Int))) rest
      else build_fold cursor rest
  | pl_event.other :: rest => build_fold cursor rest

theorem process_children_eq_append_fold (evs : List pl_event) :
    ∀ st : build_state, (∀ e ∈ evs, entry_ok e = true) →
      tl_sorted st.timeline →
      (∀ t ∈ st.timeline, t.timeline_in ≤ st.current_time) →
      (process_children st evs).timeline =
        st.timeline ++ build_fold st.current_time evs := by
  induction evs with
  | nil => intro st _ _ _; simp [process_children, build_fold]
  | cons e rest ih =>
      intro st hok hs hle
      cases e with
      | blank len =>
          simp only [process_children, build_fold]
          refine ih _ (fun e he => hok e (List.mem_cons_of_mem _ he)) hs ?_
          intro t ht
          have h1 := hle t ht
          have hnn : (0 : Int) ≤ (len : Int) := Int.ofNat_nonneg len
          show t.timeline_in ≤ st.current_time + (len : Int)
          omega
      | entry producer cin cout =>
          by_cases hp : py_startswith producer "chain"
          · have hok_e := hok _ (List.mem_cons_self _ _)
            have hio : (cin : Int) ≤ (cout : Int) := by
              simp [entry_ok, hp] at hok_e
              exact_mod_cast hok_e
            have happ := insort_right_append st.timeline
              (timeline_obj.mk producer st.current_time (cin : Int) (cout : Int)) hs
              (fun t ht => hle t ht)
            simp only [process_children, build_fold, hp, if_true]
            rw [ih ⟨st.current_time + (timeline_obj.mk producer st.current_time (cin : Int) (cout : Int)).length, insort_right st.timeline (timeline_obj.mk producer st.current_time (cin : Int) (cout : Int)), true⟩
              (fun e he => hok e (List.mem_cons_of_mem _ he))
              (insort_right_sorted _ _ hs)
              (by
                intro t ht
                simp only [happ, List.mem_append, List.mem_singleton] at ht
                show t.timeline_in ≤ st.current_time + (timeline_obj.mk producer st.current_time
                  (cin : Int) (cout : Int)).length
                simp only [timeline_obj.length]
                rcases ht with ht' | heq
                · have := hle t ht'
                  omega
                · rw [heq]
                  simp only
                  omega)]
            simp only [happ, timeline_obj.length, List.append_assoc, List.singleton_append]
          · simp only [process_children, build_fold, hp, if_false]
            exact ih _ (fun e he => hok e (List.mem_cons_of_mem _ he)) hs hle
      | other =>
          simp only [process_children, build_fold]
          exact ih _ (fun e he => hok e (List.mem_cons_of_mem _ he)) hs hle

/-- The ordering-and-disjointness relation of the specification: an
earlier clip starts strictly before a later one and its half-open range
`[timeline_in, timeline_in + length)` ends no later than the later
clip's start. -/
def tl_chain (a : List timeline_obj) : Prop :=
  a.Pairwise (fun x y => x.timeline_in < y.timeline_in ∧
    x.timeline_in + x.length ≤ y.timeline_in)

theorem tl_chain_sorted (a : List timeline_obj) (h : tl_chain a) : tl_sorted a :=
  h.imp (fun hxy => le_of_lt hxy.1)

theorem process_children_chain (evs : List pl_event) :
    ∀ st : build_state, (∀ e ∈ evs, entry_pos e = true) →
      tl_chain st.timeline →
      (∀ t ∈ st.timeline, 0 < t.length) →
      (∀ t ∈ st.timeline, t.timeline_in + t.length ≤ st.current_time) →
      tl_chain (process_children st evs).timeline ∧
        (∀ t ∈ (process_children st evs).timeline, 0 < t.length) ∧
        (∀ t ∈ (process_children st evs).timeline,
          t.timeline_in + t.length ≤ (process_children st evs).current_time) := by
  induction evs with
  | nil => intro st _ h1 h2 h3; exact ⟨h1, h2, h3⟩
  | cons e rest ih =>
      intro st hpos h1 h2 h3
      cases e with
      | blank len =>
          simp only [process_children]
          refine ih _ (fun e he => hpos e (List.mem_cons_of_mem _ he)) h1 h2 ?_
          intro t ht
          have := h3 t ht
          have hnn : (0 : Int) ≤ (len : Int) := Int.ofNat_nonneg len
          show t.timeline_in + t.length ≤ st.current_time + (len : Int)
          omega
      | entry producer cin cout =>
          by_cases hp : py_startswith producer "chain"
          · have hpos_e := hpos _ (List.mem_cons_self _ _)
            have hio : (cin : Int) < (cout : Int) := by
              simp [entry_pos, hp] at hpos_e
              exact_mod_cast hpos_e
            have hbound : ∀ t ∈ st.timeline, t.timeline_in ≤ st.current_time := by
              intro t ht
              have ha := h2 t ht
              have hb := h3 t ht
              omega
            have happ := insort_right_append st.timeline
              (timeline_obj.mk producer st.current_time (cin : Int) (cout : Int))
              (tl_chain_sorted _ h1) hbound
            simp only [process_children, hp, if_true]
            refine ih ⟨st.current_time + (timeline_obj.mk producer st.current_time (cin : Int) (cout : Int)).length, insort_right st.timeline (timeline_obj.mk producer st.current_time (cin : Int) (cout : Int)), true⟩
              (fun e he => hpos e (List.mem_cons_of_mem _ he)) ?_ ?_ ?_
            · show tl_chain (insort_right st.timeline _)
              rw [happ, tl_chain, List.pairwise_append]
              refine ⟨h1, List.pairwise_singleton _ _, ?_⟩
              intro u hu v hv
              rcases List.mem_singleton.mp hv with rfl
              have ha := h2 u hu
              have hb := h3 u hu
              constructor
              · show u.timeline_in < st.current_time
                omega
              · show u.timeline_in + u.length ≤ st.current_time
                omega
            · show ∀ t ∈ insort_right st.timeline _, 0 < t.length
              rw [happ]
              intro t ht
              rcases List.mem_append.mp ht with ht' | ht'
              · exact h2 t ht'
              · rcases List.mem_singleton.mp ht' with rfl
                show (0 : Int) < (timeline_obj.mk producer st.current_time
                  (cin : Int) (cout : Int)).length
                simp only [timeline_obj.length]
                omega
            · show ∀ t ∈ insort_right st.timeline _, t.timeline_in + t.length ≤ _
              rw [happ]
              intro t ht
              rcases List.mem_append.mp ht with ht' | ht'
              · have hcur := h3 t ht'
                show t.timeline_in + t.length ≤ st.current_time +
                  (timeline_obj.mk producer st.current_time (cin : Int) (cout : Int)).length
                simp only [timeline_obj.length] at hcur ⊢
                omega
              · rcases List.mem_singleton.mp ht' with rfl
                show st.current_time + (timeline_obj.mk producer st.current_time
                    (cin : Int) (cout : Int)).length ≤ st.current_time +
                  (timeline_obj.mk producer st.current_time (cin : Int) (cout : Int)).length
                exact le_refl _
          · simp only [process_children, hp, if_false]
            exact ih _ (fun e he => hpos e (List.mem_cons_of_mem _ he)) h1 h2 h3
      | other =>
          simp only [process_children]
          exact ih _ (fun e he => hpos e (List.mem_cons_of_mem _ he)) h1 h2 h3

theorem process_children_is_valid (evs : List pl_event) :
    ∀ st : build_state,
      (process_children st evs).is_valid = (st.is_valid || evs.any is_clip_entry) := by
  induction evs with
  | nil => intro st; simp [process_children]
  | cons e rest ih =>
      intro st
      cases e with
      | blank len =>
          simp only [process_children, List.any_cons, is_clip_entry]
          rw [ih]
          simp
      | entry producer cin cout =>
          by_cases hp : py_startswith producer "chain"
          · simp only [process_children, hp, if_true, List.any_cons, is_clip_entry]
            rw [ih]
            simp [hp]
          · simp only [process_children, List.any_cons, is_clip_entry]
            rw [if_neg hp, ih]
            simp [hp]
      | other =>
          simp only [process_children, List.any_cons, is_clip_entry]
          rw [ih]
          simp

theorem process_children_append (xs ys : List pl_event) :
    ∀ st : build_state,
      process_children st (xs ++ ys) = process_children (process_children st xs) ys := by
  induction xs with
  | nil => intro st; simp [process_children]
  | cons e rest ih =>
      intro st
      cases e with
      | blank len => simp only [List.cons_append, process_children]; exact ih _
      | entry producer cin cout =>
          by_cases hp : py_startswith producer "chain"
          · simp only [List.cons_append, process_children, hp, if_true]
            exact ih _
          · simp only [List.cons_append, process_children, hp, if_false]
            exact ih _
      | other => simp only [List.cons_append, process_children]; exact ih _

/-! ### Interval query lemmas -/

theorem get?_eq_some_getD (a : List timeline_obj) (j : Nat) (hj : j < a.length) :
    a.get? j = some (a.getD j default) := by
  rw [getD_eq_getElem a j hj, List.get?_eq_getElem?, List.getElem?_eq_getElem hj]

theorem getD_length_sub_one (a : List timeline_obj) (hne : a ≠ []) :
    a.getD (a.length - 1) default = a.getLastD default := by
  have hlen : 0 < a.length := List.length_pos.mpr hne
  rw [getD_eq_getElem a _ (by omega), List.getLastD_eq_getLast?,
    List.getLast?_eq_getElem?, List.getElem?_eq_getElem (by omega)]
  rfl

/-- When some timeline entry has `timeline_in ≤ start`, `seek_chains`
returns the entry at index `count_le - 1` followed by the filtered
suffix from index `count_le` on. -/
theorem seek_chains_eq_of_pos (p : playlist) (start fin : Int)
    (hs : tl_sorted p.timeline) (hpos : 0 < count_le p.timeline start) :
    p.seek_chains start fin =
      some (p.timeline.getD (count_le p.timeline start - 1) default ::
        (p.timeline.drop (count_le p.timeline start)).filter
          (fun t => decide (t.timeline_in < fin))) := by
  have hc_len := count_le_le_length p.timeline start
  unfold playlist.seek_chains py_index
  rw [bisect_right_eq_count_le _ _ hs]
  have h0 : (0 : Int) ≤ (count_le p.timeline start : Int) - 1 := by omega
  rw [if_pos h0]
  have h1 : ((count_le p.timeline start : Int) - 1).toNat =
      count_le p.timeline start - 1 := by omega
  have h2 : ((count_le p.timeline start : Int) - 1 + 1).toNat =
      count_le p.timeline start := by omega
  rw [h1, h2, get?_eq_some_getD p.timeline _ (by omega)]

/-- When no timeline entry has `timeline_in ≤ start` but the timeline is
non-empty, `start_index` is `-1`, Python indexing wraps to the last
element, and the forward scan covers the whole timeline. -/
theorem seek_chains_eq_of_zero (p : playlist) (start fin : Int)
    (hs : tl_sorted p.timeline) (hzero : count_le p.timeline start = 0)
    (hne : p.timeline ≠ []) :
    p.seek_chains start fin =
      some (p.timeline.getLastD default ::
        p.timeline.filter (fun t => decide (t.timeline_in < fin))) := by
  have hlen : 0 < p.timeline.length := List.length_pos.mpr hne
  unfold playlist.seek_chains py_index
  rw [bisect_right_eq_count_le _ _ hs, hzero]
  have h0 : ¬ ((0 : Int) ≤ ((0 : Nat) : Int) - 1) := by omega
  rw [if_neg h0]
  have h1 : (0 : Int) ≤ (p.timeline.length : Int) + (((0 : Nat) : Int) - 1) := by omega
  rw [if_pos h1]
  have h2 : ((p.timeline.length : Int) + (((0 : Nat) : Int) - 1)).toNat =
      p.timeline.length - 1 := by omega
  have h3 : ((((0 : Nat) : Int)) - 1 + 1).toNat = 0 := by omega
  rw [h2, h3, get?_eq_some_getD p.timeline _ (by omega),
    getD_length_sub_one p.timeline hne, List.drop_zero]

/-! ### Parse-level lemmas -/

theorem mem_dict_set {α : Type} (d : List (String × α)) (k : String) (v : α)
    (x : String × α) (hx : x ∈ dict_set d k v) : x ∈ d ∨ x = (k, v) := by
  unfold dict_set at hx
  by_cases hc : d.any (fun p => p.1 == k)
  · rw [if_pos hc] at hx
    rcases List.mem_map.mp hx with ⟨y, hy, hxy⟩
    by_cases hyk : y.1 == k
    · right
      rw [← hxy, if_pos hyk]
    · left
      rw [← hxy, if_neg hyk]
      exact hy
  · rw [if_neg hc] at hx
    rcases List.mem_append.mp hx with h | h
    · left; exact h
    · right; simpa using h

theorem parse_scan_playlists_valid (root : List top_elem) :
    ∀ pr ∈ (parse_scan root).playlists, pr.2.is_valid = true := by
  suffices h : ∀ st : parse_state, (∀ pr ∈ st.playlists, pr.2.is_valid = true) →
      ∀ pr ∈ (root.foldl parse_step st).playlists, pr.2.is_valid = true by
    refine h _ ?_
    intro pr hpr
    simp at hpr
  induction root with
  | nil => intro st h; simpa using h
  | cons el rest ih =>
      intro st h
      rw [List.foldl_cons]
      refine ih _ ?_
      cases el with
      | chain id resource => simpa [parse_step] using h
      | playlist_el id children =>
          by_cases hv : (playlist.init id children).is_valid
          · simp only [parse_step, hv, if_true]
            intro pr hpr
            rcases mem_dict_set _ _ _ _ hpr with h' | h'
            · exact h pr h'
            · rw [h']
              exact hv
          · simp only [parse_step]
            rw [if_neg hv]
            exact h
      | tractor tracks => simpa [parse_step] using h
      | other => simpa [parse_step] using h

theorem collect_muted_none (hide : List (String × String)) :
    ∀ pls : List (String × playlist), (∃ q ∈ pls, dict_get hide q.1 = none) →
      collect_muted hide pls = none := by
  intro pls
  induction pls with
  | nil => intro h; simp at h
  | cons hd rest ih =>
      intro h
      rcases h with ⟨q, hq, hqn⟩
      rcases List.mem_cons.mp hq with heq | hmem
      · rcases hd with ⟨id, p⟩
        rw [heq] at hqn
        simp only [collect_muted]
        rw [hqn]
      · rcases hd with ⟨id, p⟩
        simp only [collect_muted]
        cases hg : dict_get hide id with
        | none => rfl
        | some status =>
            rw [ih ⟨q, hmem, hqn⟩]
            rfl

theorem collect_muted_mem (hide : List (String × String)) :
    ∀ (pls : List (String × playlist)) (m : List String),
      collect_muted hide pls = some m →
      ∀ x : String, x ∈ m ↔ ((∃ q ∈ pls, q.1 = x) ∧ dict_get hide x = some "both") := by
  intro pls
  induction pls with
  | nil =>
      intro m hm x
      simp only [collect_muted, Option.some.injEq] at hm
      rw [← hm]
      simp
  | cons hd rest ih =>
      rcases hd with ⟨id, p⟩
      intro m hm x
      simp only [collect_muted] at hm
      cases hg : dict_get hide id with
      | none => rw [hg] at hm; exact absurd hm (by simp)
      | some status =>
          rw [hg] at hm
          rcases Option.map_eq_some'.mp hm with ⟨m', hm', hfm⟩
          by_cases hb : status == "both"
          · have hstatus : status = "both" := by simpa using hb
            rw [if_pos hb] at hfm
            rw [← hfm]
            constructor
            · intro hx
              rcases List.mem_cons.mp hx with heq | hmem
              · refine ⟨⟨(id, p), List.mem_cons_self _ _, heq.symm⟩, ?_⟩
                rw [heq, hg, hstatus]
              · rcases (ih m' hm' x).mp hmem with ⟨⟨q, hq, hqx⟩, hget⟩
                exact ⟨⟨q, List.mem_cons_of_mem _ hq, hqx⟩, hget⟩
            · rintro ⟨⟨q, hq, hqx⟩, hget⟩
              rcases List.mem_cons.mp hq with heq | hmem
              · rw [heq] at hqx
                rw [← hqx]
                exact List.mem_cons_self _ _
              · exact List.mem_cons_of_mem _ ((ih m' hm' x).mpr ⟨⟨q, hmem, hqx⟩, hget⟩)
          · rw [if_neg hb] at hfm
            rw [← hfm]
            constructor
            · intro hx
              rcases (ih m' hm' x).mp hx with ⟨⟨q, hq, hqx⟩, hget⟩
              exact ⟨⟨q, List.mem_cons_of_mem _ hq, hqx⟩, hget⟩
            · rintro ⟨⟨q, hq, hqx⟩, hget⟩
              rcases List.mem_cons.mp hq with heq | hmem
              · exfalso
                rw [heq] at hqx
                rw [← hqx] at hget
                simp only [hg, Option.some.injEq] at hget
                exact hb (by simp [hget])
              · exact (ih m' hm' x).mpr ⟨⟨q, hmem, hqx⟩, hget⟩

/-! ### Claim theorems -/

/-- The event sequence of the specification's round-trip example: a
2-unit gap, then clip A (`chain0`, in 0, out 5), then clip B (`chain1`,
in 1, out 3), in abstract time units. -/
def sample_events : List pl_event :=
  [pl_event.blank 2, pl_event.entry "chain0" 0 5, pl_event.entry "chain1" 1 3]

/-- C1: Timeline builder fold semantics.  For every ordered event
sequence (of a non-asset-bin track, with the format-guaranteed
`in ≤ out` on recognized clip entries), the built timeline is exactly
the fold that starts a cursor at 0, adds each gap's length to the
cursor emitting no record, and for each recognized clip reference emits
a placed clip with `timeline_start` equal to the current cursor and the
given source in/out, then advances the cursor by `out - in`. -/
theorem timeline_builder_fold_semantics (id : String) (evs : List pl_event)
    (hid : id ≠ "main_bin") (hok : ∀ e ∈ evs, entry_ok e = true) :
    (playlist.init id evs).timeline = build_fold 0 evs := by
  unfold playlist.init
  rw [if_neg (by simpa using hid)]
  have h := process_children_eq_append_fold evs
    { current_time := 0, timeline := [], is_valid := false } hok
    List.Pairwise.nil (by simp)
  simpa using h

/-- Witness for C1 at the specification's round-trip example: building
from `[Gap(2), ClipRef(chain0, 0, 5), ClipRef(chain1, 1, 3)]` yields
clip A at `timeline_start = 2` (duration 5) and clip B at
`timeline_start = 7` (duration 2). -/
theorem timeline_builder_fold_semantics_witness :
    (playlist.init "playlist0" sample_events).timeline =
      [⟨"chain0", 2, 0, 5⟩, ⟨"chain1", 7, 1, 3⟩] :=
  (timeline_builder_fold_semantics "playlist0" sample_events (by decide)
    (by decide)).trans (by decide)

/-- C5: Ordering invariant.  For every track built from an event
sequence whose recognized clip events all satisfy `source_out >
source_in`, the placed clips are strictly ordered by `timeline_start`
and consecutive half-open ranges `[timeline_start, timeline_start +
duration)` are pairwise disjoint (each earlier clip's range ends no
later than any later clip's start). -/
theorem build_strict_order_no_overlap (id : String) (evs : List pl_event)
    (hpos : ∀ e ∈ evs, entry_pos e = true) :
    (playlist.init id evs).timeline.Pairwise (fun x y =>
      x.timeline_in < y.timeline_in ∧ x.timeline_in + x.length ≤ y.timeline_in) := by
  unfold playlist.init
  by_cases hid : id == "main_bin"
  · rw [if_pos hid]
    exact List.Pairwise.nil
  · rw [if_neg hid]
    exact (process_children_chain evs
      { current_time := 0, timeline := [], is_valid := false } hpos
      List.Pairwise.nil (by simp) (by simp)).1

/-- Witness for C5 at the round-trip example events. -/
theorem build_strict_order_no_overlap_witness :
    (playlist.init "playlist0" sample_events).timeline.Pairwise (fun x y =>
      x.timeline_in < y.timeline_in ∧ x.timeline_in + x.length ≤ y.timeline_in) :=
  build_strict_order_no_overlap "playlist0" sample_events (by decide)

theorem process_children_skip (st : build_state) (pre post : List pl_event)
    (producer : String) (cin cout : Nat)
    (hnp : py_startswith producer "chain" = false) :
    process_children st (pre ++ pl_event.entry producer cin cout :: post) =
      process_children st (pre ++ post) := by
  rw [process_children_append, process_children_append]
  simp only [process_children]
  rw [if_neg (by simp [hnp])]

/-- C6: Non-media clip references are skipped entirely.  Deleting an
`entry` event whose producer id does not start with `"chain"` from
anywhere in the event sequence leaves the built playlist unchanged: no
placed clip is emitted for it, the validity flag is untouched, and the
cursor does not advance, so all later clips keep the same
`timeline_start`. -/
theorem skip_unrecognized_entry (id : String) (pre post : List pl_event)
    (producer : String) (cin cout : Nat)
    (hnp : py_startswith producer "chain" = false) :
    playlist.init id (pre ++ pl_event.entry producer cin cout :: post) =
      playlist.init id (pre ++ post) := by
  simp only [playlist.init]
  rw [process_children_skip _ pre post producer cin cout hnp]

/-- Witness for C6: a `producer3` entry between a gap and a `chain0`
clip is ignored, and the `chain0` clip is placed as if the entry were
absent. -/
theorem skip_unrecognized_entry_witness :
    playlist.init "playlist0" [pl_event.blank 2, pl_event.entry "producer3" 1 4,
        pl_event.entry "chain0" 0 5] =
      playlist.init "playlist0" [pl_event.blank 2, pl_event.entry "chain0" 0 5] :=
  skip_unrecognized_entry "playlist0" [pl_event.blank 2] [pl_event.entry "chain0" 0 5]
    "producer3" 1 4 (by decide)

/-- C2: Interval query result set.  For every built track and window
`[start, fin)` such that at least one placed clip has `timeline_in ≤
start`, `seek_chains` returns exactly the rightmost such clip (the one
at index `count_le - 1`: it satisfies `timeline_in ≤ start`, every clip
before it does too, and every clip from index `count_le` on starts
strictly after `start`) as its unconditional first result — no
condition on `timeline_in + duration` is checked — followed, in
timeline order, by every subsequent clip whose `timeline_in < fin`,
regardless of whether it extends past `fin`. -/
theorem seek_chains_window_semantics (id : String) (evs : List pl_event)
    (start fin : Int) (p : playlist) (hp : p = playlist.init id evs)
    (hcov : ∃ t ∈ p.timeline, t.timeline_in ≤ start) :
    p.seek_chains start fin =
      some (p.timeline.getD (count_le p.timeline start - 1) default ::
        (p.timeline.drop (count_le p.timeline start)).filter
          (fun t => decide (t.timeline_in < fin))) ∧
    (p.timeline.getD (count_le p.timeline start - 1) default).timeline_in ≤ start ∧
    count_le p.timeline start - 1 < p.timeline.length ∧
    (∀ j, j < count_le p.timeline start →
      (p.timeline.getD j default).timeline_in ≤ start) ∧
    (∀ j, count_le p.timeline start ≤ j → j < p.timeline.length →
      start < (p.timeline.getD j default).timeline_in) := by
  have hs : tl_sorted p.timeline := by
    rw [hp]
    exact playlist_init_sorted id evs
  have hpos : 0 < count_le p.timeline start := by
    rcases hcov with ⟨t, ht, hts⟩
    rw [count_le]
    exact List.one_le_countP_iff.mpr ⟨t, ht, by simpa using hts⟩
  have hlen := count_le_le_length p.timeline start
  refine ⟨seek_chains_eq_of_pos p start fin hs hpos, ?_, by omega, ?_, ?_⟩
  · exact count_le_lower p.timeline start hs _ (by omega)
  · intro j hj
    exact count_le_lower p.timeline start hs j hj
  · intro j h1 h2
    exact count_le_suffix p.timeline start hs j h1 h2

/-- Witness for C2: querying the round-trip example track with window
`[3, 6)` returns exactly clip A (the rightmost clip placed at or before
offset 3), and no other clip (B starts at 7 ≥ 6). -/
theorem seek_chains_window_semantics_witness :
    (playlist.init "playlist0" sample_events).seek_chains 3 6 =
      some [⟨"chain0", 2, 0, 5⟩] := by
  have h := seek_chains_window_semantics "playlist0" sample_events 3 6 _ rfl
    ⟨⟨"chain0", 2, 0, 5⟩, by decide, by decide⟩
  rw [h.1]
  decide

theorem getLastD_mem (a : List timeline_obj) (hne : a ≠ []) :
    a.getLastD default ∈ a := by
  rw [List.getLastD_eq_getLast?, List.getLast?_eq_getLast_of_ne_nil hne,
    Option.getD_some]
  exact List.getLast_mem hne

theorem seek_chains_wrap (id : String) (evs : List pl_event) (start fin : Int)
    (p : playlist) (hp : p = playlist.init id evs) (hne : p.timeline ≠ [])
    (hstart : start < (p.timeline.getD 0 default).timeline_in) :
    p.seek_chains start fin =
      some (p.timeline.getLastD default ::
        p.timeline.filter (fun t => decide (t.timeline_in < fin))) := by
  have hs : tl_sorted p.timeline := by
    rw [hp]
    exact playlist_init_sorted id evs
  have hzero : count_le p.timeline start = 0 := by
    rw [count_le, List.countP_eq_zero]
    intro t ht
    simp only [decide_eq_true_eq, not_le]
    cases hT : p.timeline with
    | nil =>
        rw [hT] at ht
        simp at ht
    | cons hd rest =>
        rw [hT] at ht hs hstart
        simp only [List.getD_cons_zero] at hstart
        rcases List.mem_cons.mp ht with heq | hmem
        · rw [heq]
          exact hstart
        · have := (List.pairwise_cons.mp hs).1 t hmem
          omega
  exact seek_chains_eq_of_zero p start fin hs hzero hne

/-- C4 counterexample: on the round-trip example track the first placed
clip starts at offset 2, yet the query for window `[0, 1)` (whose start
0 strictly precedes 2) does not fail with an out-of-range error — it
returns the wrapped-around last clip instead. -/
theorem out_of_range_window_cex :
    (playlist.init "playlist0" sample_events).timeline.head? =
      some ⟨"chain0", 2, 0, 5⟩ ∧
    (playlist.init "playlist0" sample_events).seek_chains 0 1 ≠ none ∧
    (playlist.init "playlist0" sample_events).seek_chains 0 1 =
      some [⟨"chain1", 7, 1, 3⟩] := by decide

/-- C4 (amended): Out-of-range window.  For every built track with a
non-empty timeline, a query whose window start strictly precedes the
first placed clip's `timeline_start` does not raise an out-of-range
error: `bisect_right` returns 0, `start_index` is `-1`, and Python's
negative indexing wraps to the end of the list (the engine neither
clamps to index 0 nor fails), so the first result is the track's last
placed clip. -/
theorem seek_chains_before_first_wraps (id : String) (evs : List pl_event)
    (start fin : Int) (p : playlist) (hp : p = playlist.init id evs)
    (hne : p.timeline ≠ [])
    (hstart : start < (p.timeline.getD 0 default).timeline_in) :
    p.seek_chains start fin ≠ none ∧
    ∃ rest, p.seek_chains start fin =
      some (p.timeline.getLastD default :: rest) := by
  have h := seek_chains_wrap id evs start fin p hp hne hstart
  constructor
  · rw [h]
    simp
  · exact ⟨_, h⟩

/-- Witness for C4 (amended) at the round-trip example track with
window `[0, 1)`. -/
theorem seek_chains_before_first_wraps_witness :
    (playlist.init "playlist0" sample_events).seek_chains 0 1 ≠ none ∧
    ∃ rest, (playlist.init "playlist0" sample_events).seek_chains 0 1 =
      some ((playlist.init "playlist0" sample_events).timeline.getLastD default
        :: rest) :=
  seek_chains_before_first_wraps "playlist0" sample_events 0 1 _ rfl
    (by decide) (by decide)

/-- C10: Implicit wraparound duplication.  For every built track with a
non-empty timeline and window start strictly before the first clip's
`timeline_start`, the query does not raise: its first result is the
track's last placed clip, and whenever that clip additionally satisfies
`timeline_in < fin`, it appears (at least) twice in the returned
sequence — once as the wrapped-around first result and once from the
forward scan that restarts at index 0. -/
theorem seek_chains_wraparound_duplication (id : String) (evs : List pl_event)
    (start fin : Int) (p : playlist) (hp : p = playlist.init id evs)
    (hne : p.timeline ≠ [])
    (hstart : start < (p.timeline.getD 0 default).timeline_in) :
    p.seek_chains start fin =
      some (p.timeline.getLastD default ::
        p.timeline.filter (fun t => decide (t.timeline_in < fin))) ∧
    ((p.timeline.getLastD default).timeline_in < fin →
      2 ≤ (p.timeline.getLastD default ::
        p.timeline.filter (fun t => decide (t.timeline_in < fin))).count
          (p.timeline.getLastD default)) := by
  refine ⟨seek_chains_wrap id evs start fin p hp hne hstart, ?_⟩
  intro hlt
  rw [List.count_cons_self]
  have hmem : p.timeline.getLastD default ∈
      p.timeline.filter (fun t => decide (t.timeline_in < fin)) := by
    rw [List.mem_filter]
    exact ⟨getLastD_mem p.timeline hne, by simpa using hlt⟩
  have hcount := List.one_le_count_iff.mpr hmem
  omega

/-- Witness for C10 at the round-trip example track with window
`[0, 8)`: the last clip B (at offset 7 < 8) is returned twice. -/
theorem seek_chains_wraparound_duplication_witness :
    (playlist.init "playlist0" sample_events).seek_chains 0 8 =
      some ((playlist.init "playlist0" sample_events).timeline.getLastD default ::
        (playlist.init "playlist0" sample_events).timeline.filter
          (fun t => decide (t.timeline_in < 8))) ∧
    ((playlist.init "playlist0" sample_events).timeline.getLastD default).timeline_in < 8 ∧
    2 ≤ ((playlist.init "playlist0" sample_events).timeline.getLastD default ::
        (playlist.init "playlist0" sample_events).timeline.filter
          (fun t => decide (t.timeline_in < 8))).count
      ((playlist.init "playlist0" sample_events).timeline.getLastD default) := by
  have h := seek_chains_wraparound_duplication "playlist0" sample_events 0 8 _ rfl
    (by decide) (by decide)
  exact ⟨h.1, by decide, h.2 (by decide)⟩

/-- C3 counterexample: querying the round-trip example track with
window `[3, 6)` includes clip A (`source_in = 0`, placed at 2, duration
5 ≥ window length 3).  The code emits `source_trim_end = 4`
(`chain_start + length = 1 + 3`), but the claimed formula
`source_in + (end - start)` gives `0 + 3 = 3 ≠ 4`.  (The `max 0` start
formula is also unclamped in the code; this window already refutes the
end formula.) -/
theorem trim_formula_cex :
    (playlist.init "playlist0" sample_events).seek_chains 3 6 =
      some [⟨"chain0", 2, 0, 5⟩] ∧
    ¬ (timeline_obj.length ⟨"chain0", 2, 0, 5⟩ < 6 - 3) ∧
    trim_clip 3 6 ⟨"chain0", 2, 0, 5⟩ = (1, 4) ∧
    timeline_obj.chain_in ⟨"chain0", 2, 0, 5⟩ + (6 - 3) = 3 ∧
    (4 : Int) ≠ 3 := by decide

/-- C3 (amended): Trim computation.  For every clip in a query result
for window `[start, fin)`, the emitted trim instruction satisfies
`source_trim_start = source_in + (start - timeline_start)` with no
clamping at 0 (the claimed `max 0` form agrees exactly when
`timeline_start ≤ start`, which holds for the unconditional first
result but not necessarily for subsequent clips), and
`source_trim_end = source_out` when the clip's own duration is less
than the window length, else `source_trim_end = source_trim_start +
(fin - start)` (not `source_in + (fin - start)` as claimed). -/
theorem trim_formula (start fin : Int) (res : List timeline_obj)
    (p : playlist) (_hres : p.seek_chains start fin = some res) :
    ∀ t ∈ res,
      (trim_clip start fin t).1 = t.chain_in + (start - t.timeline_in) ∧
      (t.timeline_in ≤ start →
        (trim_clip start fin t).1 = t.chain_in + max 0 (start - t.timeline_in)) ∧
      (trim_clip start fin t).2 =
        (if t.length < fin - start then t.chain_out
         else (trim_clip start fin t).1 + (fin - start)) := by
  intro t ht
  refine ⟨rfl, ?_, rfl⟩
  intro hts
  rw [trim_clip, max_eq_right (by omega : (0 : Int) ≤ start - t.timeline_in)]

/-- Witness for C3 (amended) at clip A of the round-trip example track
and window `[3, 6)`: trim start is `0 + (3 - 2) = 1` (equal to the
clamped form since A starts before the window), and trim end is
`1 + 3 = 4`. -/
theorem trim_formula_witness :
    (trim_clip 3 6 ⟨"chain0", 2, 0, 5⟩).1 = 1 ∧
    (trim_clip 3 6 ⟨"chain0", 2, 0, 5⟩).1 =
      timeline_obj.chain_in ⟨"chain0", 2, 0, 5⟩ + max 0 (3 - 2) ∧
    (trim_clip 3 6 ⟨"chain0", 2, 0, 5⟩).2 =
      (trim_clip 3 6 ⟨"chain0", 2, 0, 5⟩).1 + (6 - 3) := by
  have h := trim_formula 3 6 [⟨"chain0", 2, 0, 5⟩]
    (playlist.init "playlist0" sample_events) (by decide)
    ⟨"chain0", 2, 0, 5⟩ (by decide)
  refine ⟨h.1.trans (by decide), (h.2.1 (by decide)).trans (by decide), ?_⟩
  rw [h.2.2]
  decide

/-- C7: Track validity.  A built track is invalid exactly when it is
the special `main_bin` asset-bin container or its event sequence
contains no recognized clip entry (in particular a gaps-only track is
invalid); the asset bin short-circuits to an empty invalid track; and
the project parse only ever retains valid playlists, so invalid tracks
are excluded from the usable track set and never queried. -/
theorem track_validity :
    (∀ id evs, ((playlist.init id evs).is_valid = false ↔
        (id = "main_bin" ∨ ∀ e ∈ evs, is_clip_entry e = false))) ∧
    (∀ evs, playlist.init "main_bin" evs =
      { id := "main_bin", timeline := [], is_valid := false }) ∧
    (∀ root chains pls, parse_kdenlive_project root = some (chains, pls) →
      ∀ pr ∈ pls, pr.2.is_valid = true) := by
  refine ⟨?_, ?_, ?_⟩
  · intro id evs
    by_cases hid : id == "main_bin"
    · have hid' : id = "main_bin" := by simpa using hid
      unfold playlist.init
      rw [if_pos hid]
      simp [hid']
    · have hid' : ¬ id = "main_bin" := by simpa using hid
      unfold playlist.init
      rw [if_neg hid]
      show (process_children _ evs).is_valid = false ↔ _
      rw [process_children_is_valid]
      simp only [Bool.false_or]
      constructor
      · intro h
        exact Or.inr (by simpa using List.any_eq_false.mp h)
      · intro h
        rcases h with h | h
        · exact absurd h hid'
        · exact List.any_eq_false.mpr (by simpa using h)
  · intro evs
    unfold playlist.init
    rw [if_pos (by simp)]
  · intro root chains pls hparse pr hpr
    unfold parse_kdenlive_project at hparse
    rcases Option.map_eq_some'.mp hparse with ⟨muted, _, heq⟩
    have hpls : pls = (parse_scan root).playlists.filter
        (fun q => ! muted.contains q.1) := by
      have := congrArg Prod.snd heq
      simpa using this.symm
    rw [hpls] at hpr
    exact parse_scan_playlists_valid root pr (List.mem_filter.mp hpr).1

/-- Witness for C7: a gaps-only track is invalid; a track whose events
contain a recognized clip entry and that survives a concrete parse is
valid. -/
theorem track_validity_witness :
    (playlist.init "p1" [pl_event.blank 2, pl_event.blank 3]).is_valid = false ∧
    playlist.init "main_bin" sample_events =
      { id := "main_bin", timeline := [], is_valid := false } ∧
    (playlist.init "playlist0" sample_events).is_valid = true := by
  refine ⟨(track_validity.1 "p1" _).mpr (Or.inr (by decide)),
    track_validity.2.1 sample_events, ?_⟩
  have h := track_validity.2.2
    [top_elem.playlist_el "playlist0" sample_events,
     top_elem.tractor [("playlist0", some "audio")]]
    [] [("playlist0", playlist.init "playlist0" sample_events)] (by decide)
  exact h ("playlist0", playlist.init "playlist0" sample_events) (by decide)

/-- C8: Visibility filtering.  A retained (valid) playlist that has a
declared hide-mode survives into the final usable playlist set exactly
when that hide-mode differs from the fully-muted sentinel `"both"`; any
other declared value (no hide, audio-only, video-only, or anything
else) leaves the track included. -/
theorem visibility_filtering (root : List top_elem)
    (chains : List (String × String)) (pls : List (String × playlist))
    (id : String) (p : playlist) (status : String)
    (hparse : parse_kdenlive_project root = some (chains, pls))
    (hmem : (id, p) ∈ (parse_scan root).playlists)
    (hdecl : dict_get (parse_scan root).playlist_hide_status id = some status) :
    ((id, p) ∈ pls ↔ status ≠ "both") := by
  unfold parse_kdenlive_project at hparse
  rcases Option.map_eq_some'.mp hparse with ⟨muted, hmut, heq⟩
  have hpls : pls = (parse_scan root).playlists.filter
      (fun q => ! muted.contains q.1) := by
    have := congrArg Prod.snd heq
    simpa using this.symm
  have hmuted := collect_muted_mem (parse_scan root).playlist_hide_status
    (parse_scan root).playlists muted hmut id
  have hcontains : (muted.contains id = true) ↔ status = "both" := by
    rw [List.contains_eq_any_beq]
    constructor
    · intro h
      rcases List.any_eq_true.mp h with ⟨x, hx, hbeq⟩
      have hxid : id = x := by simpa using hbeq
      have hid_mem : id ∈ muted := by
        rw [hxid]
        exact hx
      have hboth := (hmuted.mp hid_mem).2
      rw [hdecl] at hboth
      simpa using hboth
    · intro h
      have hid_mem : id ∈ muted := hmuted.mpr
        ⟨⟨(id, p), hmem, rfl⟩, by rw [hdecl, h]⟩
      exact List.any_eq_true.mpr ⟨id, hid_mem, by simp⟩
  rw [hpls, List.mem_filter]
  constructor
  · rintro ⟨_, hfilt⟩
    intro hboth
    rw [Bool.not_eq_true', ← Bool.not_eq_true] at hfilt
    exact hfilt (hcontains.mpr hboth)
  · intro hstatus
    refine ⟨hmem, ?_⟩
    rw [Bool.not_eq_true']
    rw [← Bool.not_eq_true]
    intro hcon
    exact hstatus (hcontains.mp hcon)

/-- Witness for C8: in a concrete project with one valid playlist
declared `hide="audio"`, the playlist is included (`"audio" ≠ "both"`),
as the applied theorem's equivalence certifies. -/
theorem visibility_filtering_witness :
    ("playlist0", playlist.init "playlist0" sample_events) ∈
      [("playlist0", playlist.init "playlist0" sample_events)] ↔
    "audio" ≠ "both" :=
  visibility_filtering
    [top_elem.playlist_el "playlist0" sample_events,
     top_elem.tractor [("playlist0", some "audio")]]
    [] [("playlist0", playlist.init "playlist0" sample_events)]
    "playlist0" (playlist.init "playlist0" sample_events) "audio"
    (by decide) (by decide) (by decide)

/-- C9: Missing visibility declaration is fatal.  If any retained
(valid, non-asset-bin) playlist id has no hide declaration entry at
all, the whole project parse fails with a lookup error (`none`) instead
of silently treating the track as visible. -/
theorem missing_declaration_fatal (root : List top_elem) (id : String)
    (p : playlist)
    (hmem : (id, p) ∈ (parse_scan root).playlists)
    (hnodecl : dict_get (parse_scan root).playlist_hide_status id = none) :
    parse_kdenlive_project root = none := by
  unfold parse_kdenlive_project
  rw [collect_muted_none (parse_scan root).playlist_hide_status
    (parse_scan root).playlists ⟨(id, p), hmem, hnodecl⟩]
  rfl

/-- Witness for C9: a project with one valid playlist and no tractor
declaration at all fails to parse. -/
theorem missing_declaration_fatal_witness :
    parse_kdenlive_project [top_elem.playlist_el "playlist0" sample_events] = none :=
  missing_declaration_fatal [top_elem.playlist_el "playlist0" sample_events]
    "playlist0" (playlist.init "playlist0" sample_events) (by decide) (by decide)
